import Mathlib

/-!
Verification of the appearance-analysis pipeline of the bandy-stat repository
(`analyze_players.py`, `processing.py`) against its natural-language
specification.  Python strings are modelled as `List Char`; the tabular
(pandas) operations are modelled as explicit list functions.  Machine details
that the claims do not touch (unicode categories beyond ASCII, the CSV
round-trip encoding) are modelled on the ASCII fragment actually exercised by
the pipeline and noted at the relevant definition.
-/

set_option autoImplicit false

namespace Bandy

/-- Whitespace class used by Python `str.strip` / `str.split` / `int` for
ASCII input (space, tab, newline, carriage return, vertical tab, form feed). -/
def pyWs (c : Char) : Bool :=
  c = ' ' || c = '\t' || c = '\n' || c = '\r' || c = '\x0b' || c = '\x0c'

/-- Python `str.strip()`: drop leading and trailing whitespace. -/
def stripWs (l : List Char) : List Char :=
  ((l.dropWhile pyWs).reverse.dropWhile pyWs).reverse

/-- Python `str.split()` (no separator argument): split on whitespace runs,
discarding empty fragments.  `acc` holds the current word, reversed. -/
def splitWsAcc : List Char → List Char → List (List Char)
  | [], acc => if acc.isEmpty then [] else [acc.reverse]
  | c :: cs, acc =>
      if pyWs c then
        if acc.isEmpty then splitWsAcc cs [] else acc.reverse :: splitWsAcc cs []
      else splitWsAcc cs (c :: acc)

/-- Python `" ".join(words)`. -/
def joinSp : List (List Char) → List Char
  | [] => []
  | [w] => w
  | w :: v :: vs => w ++ ' ' :: joinSp (v :: vs)

/-- Whole-string result of `" ".join(s.split())` as used by the pipeline. -/
def joinWords (l : List Char) : List Char :=
  joinSp (splitWsAcc l [])

/-- Base-10 value accumulated left to right over ASCII digit characters,
as Python `int` computes it for a validated digit string. -/
def digitsVal (l : List Char) : Nat :=
  l.foldl (fun a c => 10 * a + (c.toNat - 48)) 0

/-- Digit-string validation of Python `int(str)` after sign removal: the body
must be nonempty and all ASCII digits.  (Python additionally accepts
underscore separators between digits and non-ASCII decimal digits; the
pipeline only ever feeds it scraped ASCII cell text, which this models.) -/
def parseNatStr (l : List Char) : Option Nat :=
  if l.isEmpty then none
  else if l.all Char.isDigit then some (digitsVal l) else none

/-- Python `int(s)` on a string: strip whitespace, optional single sign,
then a digit body; `none` models a raised `ValueError`. -/
def pyInt (s : List Char) : Option Int :=
  let t := stripWs s
  if t.head? = some '-' then (parseNatStr t.tail).map (fun v => -(v : Int))
  else if t.head? = some '+' then (parseNatStr t.tail).map (fun v => (v : Int))
  else (parseNatStr t).map (fun v => (v : Int))

/-- A raw match-count cell as seen by `safe_int` after the CSV round-trip:
either cell text or a missing value (pandas `NaN`, on which Python `int`
raises). -/
inductive CellVal where
  | s (text : List Char)
  | na
deriving DecidableEq, Repr

/-- `safe_int` from `analyze_players.py` (lines 341-346): `int(x)` with every
failure coerced to 0. -/
def safe_int : CellVal → Int
  | .na => 0
  | .s t => (pyInt t).getD 0

/-- Decimal rendering of a natural number, as `str` would print it. -/
def natToChars (m : Nat) : List Char :=
  if m = 0 then ['0'] else ((Nat.digits 10 m).reverse.map Nat.digitChar)

/-- Decimal rendering of an integer, as `str` would print it. -/
def intToChars (n : Int) : List Char :=
  if n < 0 then '-' :: natToChars n.natAbs else natToChars n.toNat

/-- Pipeline of `s.strip()` followed by `" ".join(s.split())` applied to the
NFKC-normalised input, from `normalize_name` in `processing.py`.  The NFKC
step is an opaque parameter `nfkc`; the Unicode-standard facts the proofs
need about it are taken as hypotheses where used. -/
def normBody (nfkc : List Char → List Char) (s : List Char) : List Char :=
  joinSp (splitWsAcc (stripWs (nfkc s)) [])

/-- `normalize_name` from `processing.py` (lines 6-13): falsy (empty) input is
returned unchanged, otherwise NFKC-normalise, strip, and collapse internal
whitespace runs to single spaces. -/
def normalize_name (nfkc : List Char → List Char) (name : List Char) : List Char :=
  if name.isEmpty then name else normBody nfkc name

/-- No two adjacent whitespace characters (so no whitespace run longer than
one character). -/
def noWsRun : List Char → Bool
  | a :: b :: rest => (!(pyWs a && pyWs b)) && noWsRun (b :: rest)
  | _ => true

/-- Python `str.lower` restricted to the alphabet appearing in the scraped
headers: ASCII letters via `Char.toLower` plus the Swedish capitals. -/
def pyLowerChar (c : Char) : Char :=
  if c = 'Å' then 'å' else if c = 'Ä' then 'ä' else if c = 'Ö' then 'ö' else c.toLower

/-- Python `str.lower` on a string of the scraped alphabet. -/
def pyLower (l : List Char) : List Char :=
  l.map pyLowerChar

/-- Python `str.upper` restricted to the same alphabet. -/
def pyUpperChar (c : Char) : Char :=
  if c = 'å' then 'Å' else if c = 'ä' then 'Ä' else if c = 'ö' then 'Ö' else c.toUpper

/-- Python `str.upper` on a string of the scraped alphabet. -/
def pyUpper (l : List Char) : List Char :=
  l.map pyUpperChar

/-- The header dictionary of `fetch_player_appearances` (line 84):
`col_map` maps lower-cased header text to its index, a later duplicate
header overwriting an earlier one; `colMapGet headers key` is
`col_map.get(key)` / the `key in col_map` test via `Option.isSome`. -/
def colMapGet (headers : List (List Char)) (key : List Char) : Option Nat :=
  headers.enum.foldl (fun acc p => if pyLower p.2 = key then some p.1 else acc) none

/-- One extracted table row (lines 90-98 of `analyze_players.py`). -/
structure RowData where
  competition : List Char
  team : List Char
  matchCount : List Char
  goals : List Char
  assists : List Char
  points : List Char
  penalty : List Char
deriving DecidableEq, Repr

/-- One semantic field of a row, mirroring
`tds[col_map.get(key, dflt)].inner_text().strip() if key in col_map else ""`:
when the header is present the cell at its mapped index is stripped (the
positional default `dflt` of `col_map.get` is unreachable under the guard);
when the header is absent the field is the empty string. -/
def extractField (headers cells : List (List Char)) (key : List Char) (dflt : Nat) :
    List Char :=
  if (colMapGet headers key).isSome then
    stripWs (cells.getD ((colMapGet headers key).getD dflt) [])
  else []

/-- Row extraction from `fetch_player_appearances` (lines 85-99): a row with
no cells or fewer cells than headers is skipped; otherwise the seven semantic
fields are resolved with their fixed header names and positional defaults. -/
def extractRow (headers cells : List (List Char)) : Option RowData :=
  if cells.isEmpty || cells.length < headers.length then none
  else some
    { competition := extractField headers cells ("tävling").data 0
      team := extractField headers cells ("lag").data 1
      matchCount := extractField headers cells ("ma").data 2
      goals := extractField headers cells ("må").data 3
      assists := extractField headers cells ("ass").data 4
      points := extractField headers cells ("p").data 5
      penalty := extractField headers cells ("utv").data 6 }

/-- Python `str.isdigit` on ASCII text: nonempty and all decimal digits.
(Python also accepts non-ASCII decimal digits; the scraped cells are ASCII.) -/
def pyIsDigitStr (l : List Char) : Bool :=
  !l.isEmpty && l.all Char.isDigit

/-- The aggregation-loop filter (lines 312-314): a row is appended iff its
competition field is not falsy, does not strip to the empty string, and does
not strip to a pure digit string. -/
def keepComp (comp : List Char) : Bool :=
  !(comp.isEmpty || (stripWs comp).isEmpty || pyIsDigitStr (stripWs comp))

/-- Whitespace-only string (nonempty, every character whitespace). -/
def wsOnly (l : List Char) : Prop :=
  l ≠ [] ∧ ∀ c ∈ l, pyWs c = true

/-- String composed entirely of digits (nonempty, every character a digit). -/
def allDigits (l : List Char) : Prop :=
  l ≠ [] ∧ ∀ c ∈ l, c.isDigit = true

/-- One appended appearance dict (lines 315-324) as re-read from the CSV
checkpoint: `matches` is still an uncoerced cell value.  The pass-through
goals/assists/points/penalty strings are never read by any later stage and
are not carried. -/
structure RawApp where
  player : List Char
  division : List Char
  team : List Char
  matchCount : CellVal
deriving DecidableEq, Repr

/-- An appearance record after the `safe_int` coercion of `matches`. -/
structure AppRec where
  player : List Char
  division : List Char
  team : List Char
  matchCount : Int
deriving DecidableEq, Repr

/-- `safe_int` applied to the matches column (line 346). -/
def coerceApp (r : RawApp) : AppRec :=
  ⟨r.player, r.division, r.team, safe_int r.matchCount⟩

/-- The TOTALT test of line 349: `division.str.upper() == "TOTALT"`. -/
def isTotal (r : AppRec) : Bool :=
  pyUpper r.division = ("TOTALT").data

/-- The reference-total rows `df_total` (line 350). -/
def totalsOf (l : List AppRec) : List AppRec :=
  l.filter (fun r => isTotal r)

/-- The working set with TOTALT rows removed (line 351). -/
def dropTotals (l : List AppRec) : List AppRec :=
  l.filter (fun r => !(isTotal r))

/-- The cleanup filter of line 353: keep rows with a nonempty division and a
positive match count.  (After the CSV round-trip an empty division reads back
as `NaN`; both it and the empty string fail this filter, so nonemptiness
captures `notna` as well.) -/
def cleanApp (l : List AppRec) : List AppRec :=
  l.filter (fun r => !r.division.isEmpty && decide (0 < r.matchCount))

/-- Lexicographic comparison of strings by code point, the order pandas uses
for pivot axis labels. -/
def strLe : List Char → List Char → Bool
  | [], _ => true
  | _ :: _, [] => false
  | a :: as, b :: bs => if a < b then true else if b < a then false else strLe as bs

instance strLeDecidable : DecidableRel (fun a b : List Char => strLe a b = true) :=
  fun a b => instDecidableEqBool (strLe a b) true

/-- The distinct values of a pivot axis, sorted as pandas sorts its index and
columns. -/
def sortedUnique (l : List (List Char)) : List (List Char) :=
  List.insertionSort (fun a b => strLe a b = true) l.dedup

/-- The row labels (players) of the player-by-division `pivot_table`
(line 356). -/
def pivotPlayers (l : List AppRec) : List (List Char) :=
  sortedUnique (l.map (fun r => r.player))

/-- The column labels (divisions) of the player-by-division `pivot_table`
(line 356); also the row labels of the division-by-player `pivot_table`
(line 394). -/
def pivotDivisions (l : List AppRec) : List (List Char) :=
  sortedUnique (l.map (fun r => r.division))

/-- Cell of the player-by-division matrix (line 356): sum of match counts
over all entries (team duplicates included) of that pair, 0 when absent. -/
def cellPD (l : List AppRec) (p d : List Char) : Int :=
  ((l.filter (fun r => r.player = p ∧ r.division = d)).map (fun r => r.matchCount)).sum

/-- `pivot.loc[player].sum()` (line 385): the sum of the player's row over
all division columns. -/
def rowSumPD (l : List AppRec) (p : List Char) : Int :=
  ((pivotDivisions l).map (fun d => cellPD l p d)).sum

/-- Direct total of a player's record match counts (the quantity the row sum
should re-aggregate to). -/
def playerTotal (l : List AppRec) (p : List Char) : Int :=
  ((l.filter (fun r => r.player = p)).map (fun r => r.matchCount)).sum

/-- `played_flag` of line 392: 1 if the row's match count is positive else 0. -/
def playedFlag (r : AppRec) : Int :=
  if 0 < r.matchCount then 1 else 0

/-- Cell of the division-by-player participation matrix (line 394):
`aggfunc='max'` over the pair's flags, `fill_value=0` when the pair has no
rows. -/
def cellDP (l : List AppRec) (d p : List Char) : Int :=
  ((l.filter (fun r => r.division = d ∧ r.player = p)).map playedFlag).foldl max 0

/-- A validation mismatch as printed by lines 386-387, carrying the player
and both the expected (TOTALT) and computed (row-sum) values. -/
structure Mismatch where
  player : List Char
  expected : Int
  computed : Int
deriving DecidableEq, Repr

/-- `df_total[df_total["player"] == player].iloc[0]["matches"]` (lines
382-384): the match count of the first TOTALT row of that player, if any. -/
def firstTotalMatches (totals : List AppRec) (p : List Char) : Option Int :=
  ((totals.filter (fun r => r.player = p)).head?).map (fun r => r.matchCount)

/-- The validation loop of lines 381-387: for each player of the pivot index,
if a TOTALT row exists and its count differs from the player's row sum, a
warning naming both values is emitted. -/
def validationWarnings (totals m : List AppRec) : List Mismatch :=
  (pivotPlayers m).filterMap (fun p =>
    match firstTotalMatches totals p with
    | none => none
    | some e => if e ≠ rowSumPD m p then some ⟨p, e, rowSumPD m p⟩ else none)

/-- The coerced records of the re-read appearance table (line 346). -/
def coerced (raw : List RawApp) : List AppRec :=
  raw.map coerceApp

/-- The cleaned working set feeding both pivots (lines 346-353). -/
def workingSet (raw : List RawApp) : List AppRec :=
  cleanApp (dropTotals (coerced raw))

/-- The division columns handed to the stacked per-player chart by
`analyze_trupp` (lines 361-365): `pivot_plot = pivot.copy()` keeps every
column of the pivot; the `maxDivisions` argument (signature line 273) is
accepted but never applied anywhere in the function body. -/
def chartDivisionsTrupp (raw : List RawApp) (maxDivisions : Nat) : List (List Char) :=
  pivotDivisions (workingSet raw)

/-- The division rows handed to the players-per-league chart by
`analyze_trupp` (lines 399-402): every league is kept; the `maxLeagues`
argument (signature line 273) is accepted but never applied. -/
def chartLeaguesTrupp (raw : List RawApp) (maxLeagues : Nat) : List (List Char) :=
  pivotDivisions (workingSet raw)

/-- One roster entry together with the rows extracted from its profile page:
`hasHref` is the guard of line 289 (`href` is a string with nonempty strip). -/
structure PlayerFetch where
  label : List Char
  hasHref : Bool
  rows : List RowData
deriving DecidableEq, Repr

/-- The appended record of lines 315-324 for one surviving extracted row. -/
def rowToRaw (label : List Char) (r : RowData) : RawApp :=
  ⟨label, stripWs r.competition, r.team, .s r.matchCount⟩

/-- The accumulation loop of lines 285-327: entries without a usable href are
skipped, and each fetched row passes the competition filter before being
appended. -/
def aggregate (roster : List PlayerFetch) : List RawApp :=
  (roster.map (fun pf =>
    if pf.hasHref then
      (pf.rows.filter (fun r => keepComp r.competition)).map (rowToRaw pf.label)
    else [])).flatten

/-- Observable outcome of one `analyze_trupp` run: the informational messages
printed on early return and the chart artifacts written. -/
structure Outcome where
  msgs : List (List Char)
  charts : List (List Char)
deriving DecidableEq, Repr

/-- Control flow of `analyze_trupp` (lines 273-419) after the fetch loop:
empty accumulation returns with a message and no charts (lines 329-331);
an empty pivot returns with a message and no charts (lines 357-359); the
`players_per_league.empty` check of line 395 can only fire when the working
set is empty, which the earlier pivot check already caught, so it is dead in
this model; otherwise both charts are written. -/
def analyze_trupp_model (roster : List PlayerFetch) : Outcome :=
  let apps := aggregate roster
  if apps.isEmpty then
    ⟨[("No appearance rows found for any player.").data], []⟩
  else
    let m := workingSet apps
    if m.isEmpty then
      ⟨[("No division appearance data to plot.").data], []⟩
    else if m.isEmpty then
      ⟨[("No data for players-per-league plot.").data],
        [("players_division_stack.png").data]⟩
    else
      ⟨[], [("players_division_stack.png").data,
        ("players_per_league_stack.png").data]⟩

lemma dropWhile_eq_self_of_head (p : Char → Bool) (l : List Char)
    (h : ∀ c, l.head? = some c → p c = false) : l.dropWhile p = l := by
  cases l with
  | nil => rfl
  | cons c cs =>
      rw [List.dropWhile_cons, if_neg]
      simp [h c rfl]

lemma stripWs_eq_self (l : List Char) (h : ∀ c ∈ l, pyWs c = false) :
    stripWs l = l := by
  unfold stripWs
  rw [dropWhile_eq_self_of_head pyWs l, dropWhile_eq_self_of_head pyWs l.reverse,
    List.reverse_reverse]
  · intro c hc
    exact h c (List.mem_reverse.mp (List.mem_of_mem_head? hc))
  · intro c hc
    exact h c (List.mem_of_mem_head? hc)

lemma pyWs_eq_false_of_isDigit (c : Char) (h : c.isDigit = true) :
    pyWs c = false := by
  have h1 : c ≠ ' ' := fun e => by subst e; exact absurd h (by decide)
  have h2 : c ≠ '\t' := fun e => by subst e; exact absurd h (by decide)
  have h3 : c ≠ '\n' := fun e => by subst e; exact absurd h (by decide)
  have h4 : c ≠ '\r' := fun e => by subst e; exact absurd h (by decide)
  have h5 : c ≠ '\x0b' := fun e => by subst e; exact absurd h (by decide)
  have h6 : c ≠ '\x0c' := fun e => by subst e; exact absurd h (by decide)
  simp [pyWs, h1, h2, h3, h4, h5, h6]

lemma isDigit_digitChar (d : Nat) (h : d < 10) : (Nat.digitChar d).isDigit = true := by
  revert d
  decide

lemma toNat_digitChar_sub (d : Nat) (h : d < 10) : (Nat.digitChar d).toNat - 48 = d := by
  revert d
  decide

lemma foldl_digitChar (ds : List Nat) (a : Nat) (h : ∀ d ∈ ds, d < 10) :
    ds.foldl (fun a c => 10 * a + ((Nat.digitChar c).toNat - 48)) a =
      ds.foldl (fun a d => 10 * a + d) a := by
  induction ds generalizing a with
  | nil => rfl
  | cons d ds ih =>
      simp only [List.foldl_cons]
      rw [toNat_digitChar_sub d (h d (by simp)), ih _ (fun x hx => h x (by simp [hx]))]

lemma foldl_reverse_ofDigits (ds : List Nat) :
    ds.reverse.foldl (fun a d => 10 * a + d) 0 = Nat.ofDigits 10 ds := by
  induction ds with
  | nil => rfl
  | cons d ds ih =>
      rw [List.reverse_cons, List.foldl_append, ih, Nat.ofDigits_cons]
      simp only [List.foldl_cons, List.foldl_nil]
      ring

lemma natToChars_ne_nil (m : Nat) : natToChars m ≠ [] := by
  unfold natToChars
  by_cases hm : m = 0
  · simp [hm]
  · simp only [if_neg hm, ne_eq, List.map_eq_nil_iff, List.reverse_eq_nil_iff]
    exact Nat.digits_ne_nil_iff_ne_zero.mpr hm

lemma natToChars_all_digit (m : Nat) : ∀ c ∈ natToChars m, c.isDigit = true := by
  intro c hc
  unfold natToChars at hc
  by_cases hm : m = 0
  · simp [hm] at hc
    subst hc
    decide
  · rw [if_neg hm] at hc
    obtain ⟨d, hd, rfl⟩ := List.mem_map.mp hc
    exact isDigit_digitChar d
      (Nat.digits_lt_base (by norm_num) (List.mem_reverse.mp hd))

lemma digitsVal_natToChars (m : Nat) : digitsVal (natToChars m) = m := by
  by_cases hm : m = 0
  · subst hm
    decide
  · unfold natToChars digitsVal
    rw [if_neg hm, List.foldl_map,
      foldl_digitChar _ _ (fun d hd => Nat.digits_lt_base (by norm_num)
        (List.mem_reverse.mp hd)),
      foldl_reverse_ofDigits, Nat.ofDigits_digits]

lemma parseNatStr_natToChars (m : Nat) : parseNatStr (natToChars m) = some m := by
  unfold parseNatStr
  rw [if_neg, if_pos]
  · rw [digitsVal_natToChars]
  · exact List.all_eq_true.mpr (fun c hc => natToChars_all_digit m c hc)
  · simp [List.isEmpty_iff, natToChars_ne_nil m]

lemma stripWs_natToChars (m : Nat) : stripWs (natToChars m) = natToChars m :=
  stripWs_eq_self _ (fun c hc => pyWs_eq_false_of_isDigit c (natToChars_all_digit m c hc))

lemma pyInt_intToChars (n : Int) : pyInt (intToChars n) = some n := by
  rcases lt_trichotomy n 0 with hneg | hzero | hpos
  · have hm : n.natAbs ≠ 0 := by omega
    have hchars : intToChars n = '-' :: natToChars n.natAbs := by
      unfold intToChars
      rw [if_pos hneg]
    have hstrip : stripWs ('-' :: natToChars n.natAbs) = '-' :: natToChars n.natAbs := by
      apply stripWs_eq_self
      intro c hc
      rcases List.mem_cons.mp hc with rfl | hc
      · decide
      · exact pyWs_eq_false_of_isDigit c (natToChars_all_digit _ c hc)
    rw [hchars]
    unfold pyInt
    simp only [hstrip, List.head?_cons, List.tail_cons, if_pos rfl]
    rw [parseNatStr_natToChars]
    exact congrArg some (show -((n.natAbs : Int)) = n by omega)
  · subst hzero
    decide
  · have hchars : intToChars n = natToChars n.toNat := by
      unfold intToChars
      rw [if_neg (by omega)]
    obtain ⟨c, hc⟩ : ∃ c, (natToChars n.toNat).head? = some c := by
      cases hh : (natToChars n.toNat).head? with
      | none => exact absurd (List.head?_eq_none_iff.mp hh) (natToChars_ne_nil _)
      | some c => exact ⟨c, rfl⟩
    have hcd : c.isDigit = true :=
      natToChars_all_digit _ c (List.mem_of_mem_head? hc)
    have hcm : c ≠ '-' := fun e => by subst e; exact absurd hcd (by decide)
    have hcp : c ≠ '+' := fun e => by subst e; exact absurd hcd (by decide)
    rw [hchars]
    unfold pyInt
    simp only [stripWs_natToChars, hc]
    rw [if_neg (by simp [hcm]), if_neg (by simp [hcp]), parseNatStr_natToChars]
    exact congrArg some (show ((n.toNat : Int)) = n by omega)

/-- C5: numeric coercion of match counts never raises; on a valid integer
input it returns exactly the integer the input denotes (in particular it is
the identity on canonical decimal renderings), and on any non-numeric or
missing input it returns 0.  `safe_int` is the coercion from
`analyze_players.py` lines 341-346. -/
theorem C5_safe_int_coercion :
    (∀ n : Int, safe_int (.s (intToChars n)) = n) ∧
    (∀ t n, pyInt t = some n → safe_int (.s t) = n) ∧
    (∀ t, pyInt t = none → safe_int (.s t) = 0) ∧
    safe_int .na = 0 := by
  refine ⟨fun n => ?_, fun t n h => ?_, fun t h => ?_, rfl⟩
  · show (pyInt (intToChars n)).getD 0 = n
    rw [pyInt_intToChars]
    rfl
  · show (pyInt t).getD 0 = n
    rw [h]
    rfl
  · show (pyInt t).getD 0 = 0
    rw [h]
    rfl

/-- Witness for C5 at concrete inputs: identity on the rendering of `-12`, a
valid input `" 42"` parsed to 42, a non-numeric input `"ab"` coerced to 0,
and a missing value coerced to 0. -/
theorem C5_safe_int_coercion_witness :
    safe_int (.s (intToChars (-12))) = -12 ∧
    (pyInt (' ' :: '4' :: '2' :: []) = some 42 ∧
      safe_int (.s (' ' :: '4' :: '2' :: [])) = 42) ∧
    (pyInt ('a' :: 'b' :: []) = none ∧ safe_int (.s ('a' :: 'b' :: [])) = 0) ∧
    safe_int .na = 0 :=
  ⟨C5_safe_int_coercion.1 (-12),
    ⟨by decide, C5_safe_int_coercion.2.1 _ 42 (by decide)⟩,
    ⟨by decide, C5_safe_int_coercion.2.2.1 _ (by decide)⟩,
    C5_safe_int_coercion.2.2.2⟩

lemma head_append_left (xs ys : List Char) (h : xs ≠ []) :
    (xs ++ ys).head? = xs.head? := by
  cases xs with
  | nil => exact absurd rfl h
  | cons a t => rfl

lemma splitWsAcc_nil_eq (acc : List Char) :
    splitWsAcc [] acc = if acc.isEmpty then [] else [acc.reverse] := rfl

lemma splitWsAcc_cons_eq (c : Char) (cs acc : List Char) :
    splitWsAcc (c :: cs) acc =
      if pyWs c then
        (if acc.isEmpty then splitWsAcc cs [] else acc.reverse :: splitWsAcc cs [])
      else splitWsAcc cs (c :: acc) := rfl

lemma splitWsAcc_words (l : List Char) :
    ∀ acc, (∀ c ∈ acc, pyWs c = false) →
      ∀ w ∈ splitWsAcc l acc, w ≠ [] ∧ ∀ c ∈ w, pyWs c = false := by
  induction l with
  | nil =>
      intro acc hacc w hw
      rw [splitWsAcc_nil_eq] at hw
      cases acc with
      | nil => simp at hw
      | cons a t =>
          rw [if_neg (by simp)] at hw
          simp only [List.mem_singleton] at hw
          subst hw
          refine ⟨by simp, fun c hc => hacc c (List.mem_reverse.mp hc)⟩
  | cons c cs ih =>
      intro acc hacc w hw
      rw [splitWsAcc_cons_eq] at hw
      by_cases hws : pyWs c = true
      · rw [if_pos hws] at hw
        by_cases hae : acc.isEmpty
        · rw [if_pos hae] at hw
          exact ih [] (by simp) w hw
        · rw [if_neg hae] at hw
          rcases List.mem_cons.mp hw with rfl | hw
          · constructor
            · simp only [ne_eq, List.reverse_eq_nil_iff]
              exact fun e => hae (by simp [e])
            · exact fun d hd => hacc d (List.mem_reverse.mp hd)
          · exact ih [] (by simp) w hw
      · rw [if_neg hws] at hw
        refine ih (c :: acc) ?_ w hw
        intro d hd
        rcases List.mem_cons.mp hd with rfl | hd
        · exact Bool.eq_false_iff.mpr hws
        · exact hacc d hd

lemma splitWsAcc_append_word (w : List Char) (hw : ∀ c ∈ w, pyWs c = false) :
    ∀ l acc, splitWsAcc (w ++ l) acc = splitWsAcc l (w.reverse ++ acc) := by
  induction w with
  | nil => intro l acc; simp
  | cons c w ih =>
      intro l acc
      have hc : pyWs c = false := hw c (by simp)
      show splitWsAcc (c :: (w ++ l)) acc = _
      rw [splitWsAcc_cons_eq, if_neg (by simp [hc]),
        ih (fun d hd => hw d (by simp [hd])) l (c :: acc)]
      simp

lemma joinSp_cons (w : List Char) (ws : List (List Char)) :
    ∃ X, joinSp (w :: ws) = w ++ X := by
  cases ws with
  | nil => exact ⟨[], by simp [joinSp]⟩
  | cons v vs => exact ⟨' ' :: joinSp (v :: vs), rfl⟩

lemma joinSp_ne_nil (w : List Char) (ws : List (List Char)) (hw : w ≠ []) :
    joinSp (w :: ws) ≠ [] := by
  obtain ⟨X, hX⟩ := joinSp_cons w ws
  rw [hX]
  simp [hw]

lemma splitWsAcc_joinSp (ws : List (List Char))
    (h : ∀ w ∈ ws, w ≠ [] ∧ ∀ c ∈ w, pyWs c = false) :
    splitWsAcc (joinSp ws) [] = ws := by
  induction ws with
  | nil => rfl
  | cons w vs ih =>
      have hw := h w (by simp)
      cases vs with
      | nil =>
          show splitWsAcc (joinSp [w]) [] = [w]
          have : joinSp [w] = w ++ [] := by simp [joinSp]
          rw [this, splitWsAcc_append_word w hw.2]
          unfold splitWsAcc
          rw [if_neg (by simp [hw.1])]
          simp
      | cons v vs2 =>
          show splitWsAcc (w ++ ' ' :: joinSp (v :: vs2)) [] = w :: v :: vs2
          rw [splitWsAcc_append_word w hw.2]
          show splitWsAcc (' ' :: joinSp (v :: vs2)) (w.reverse ++ []) = _
          unfold splitWsAcc
          rw [if_pos (by decide), if_neg (by simp [hw.1])]
          rw [ih (fun u hu => h u (by simp [hu]))]
          simp

lemma joinSp_head_not_ws (ws : List (List Char))
    (h : ∀ w ∈ ws, w ≠ [] ∧ ∀ c ∈ w, pyWs c = false) :
    ∀ c, (joinSp ws).head? = some c → pyWs c = false := by
  intro c hc
  cases ws with
  | nil => simp [joinSp] at hc
  | cons w vs =>
      obtain ⟨X, hX⟩ := joinSp_cons w vs
      rw [hX, head_append_left w X (h w (by simp)).1] at hc
      exact (h w (by simp)).2 c (List.mem_of_mem_head? hc)

lemma joinSp_last_not_ws (ws : List (List Char))
    (h : ∀ w ∈ ws, w ≠ [] ∧ ∀ c ∈ w, pyWs c = false) :
    ∀ c, (joinSp ws).reverse.head? = some c → pyWs c = false := by
  induction ws with
  | nil => intro c hc; simp [joinSp] at hc
  | cons w vs ih =>
      intro c hc
      cases vs with
      | nil =>
          have hwm : c ∈ w := by
            have : joinSp [w] = w := by simp [joinSp]
            rw [this] at hc
            exact List.mem_reverse.mp (List.mem_of_mem_head? hc)
          exact (h w (by simp)).2 c hwm
      | cons v vs2 =>
          have hJ : joinSp (v :: vs2) ≠ [] := joinSp_ne_nil v vs2 (h v (by simp)).1
          have hrw : joinSp (w :: v :: vs2) = w ++ ' ' :: joinSp (v :: vs2) := rfl
          rw [hrw, List.reverse_append] at hc
          have hrev : (' ' :: joinSp (v :: vs2)).reverse =
              (joinSp (v :: vs2)).reverse ++ [' '] := by simp
          rw [hrev, List.append_assoc,
            head_append_left _ _ (by simpa using hJ)] at hc
          exact ih (fun u hu => h u (by simp [hu])) c hc

lemma stripWs_joinSp (ws : List (List Char))
    (h : ∀ w ∈ ws, w ≠ [] ∧ ∀ c ∈ w, pyWs c = false) :
    stripWs (joinSp ws) = joinSp ws := by
  unfold stripWs
  rw [dropWhile_eq_self_of_head pyWs _ (joinSp_head_not_ws ws h),
    dropWhile_eq_self_of_head pyWs _ (joinSp_last_not_ws ws h),
    List.reverse_reverse]

lemma noWsRun_cons (c : Char) (m : List Char) (hc : pyWs c = false)
    (hm : noWsRun m = true) : noWsRun (c :: m) = true := by
  cases m with
  | nil => rfl
  | cons b r =>
      show ((!(pyWs c && pyWs b)) && noWsRun (b :: r)) = true
      rw [hc, hm]
      simp

lemma noWsRun_append_word (w m : List Char) (hw : ∀ c ∈ w, pyWs c = false)
    (hm : noWsRun m = true) : noWsRun (w ++ m) = true := by
  induction w with
  | nil => simpa using hm
  | cons c w ih =>
      exact noWsRun_cons c (w ++ m) (hw c (by simp))
        (ih (fun d hd => hw d (by simp [hd])))

lemma noWsRun_joinSp (ws : List (List Char))
    (h : ∀ w ∈ ws, w ≠ [] ∧ ∀ c ∈ w, pyWs c = false) :
    noWsRun (joinSp ws) = true := by
  induction ws with
  | nil => rfl
  | cons w vs ih =>
      cases vs with
      | nil =>
          show noWsRun (joinSp [w]) = true
          have : joinSp [w] = w ++ [] := by simp [joinSp]
          rw [this]
          exact noWsRun_append_word w [] (h w (by simp)).2 rfl
      | cons v vs2 =>
          obtain ⟨X, hX⟩ := joinSp_cons v vs2
          have hv := h v (by simp)
          obtain ⟨a, v2, rfl⟩ : ∃ a v2, v = a :: v2 := by
            cases v with
            | nil => exact absurd rfl hv.1
            | cons a v2 => exact ⟨a, v2, rfl⟩
          have hJrun : noWsRun (joinSp ((a :: v2) :: vs2)) = true :=
            ih (fun u hu => h u (by simp [hu]))
          show noWsRun (w ++ ' ' :: joinSp ((a :: v2) :: vs2)) = true
          refine noWsRun_append_word w _ (h w (by simp)).2 ?_
          rw [hX]
          show noWsRun (' ' :: a :: (v2 ++ X)) = true
          have ha : pyWs a = false := hv.2 a (by simp)
          have htail : noWsRun (a :: (v2 ++ X)) = true := by
            have : joinSp ((a :: v2) :: vs2) = a :: (v2 ++ X) := by
              rw [hX]; rfl
            rw [this] at hJrun
            exact hJrun
          show ((!(pyWs ' ' && pyWs a)) && noWsRun (a :: (v2 ++ X))) = true
          rw [ha, htail]
          simp

lemma normBody_words (nfkc : List Char → List Char) (s : List Char) :
    ∀ w ∈ splitWsAcc (stripWs (nfkc s)) [], w ≠ [] ∧ ∀ c ∈ w, pyWs c = false :=
  splitWsAcc_words _ [] (by simp)

lemma stripWs_normBody (nfkc : List Char → List Char) (s : List Char) :
    stripWs (normBody nfkc s) = normBody nfkc s :=
  stripWs_joinSp _ (normBody_words nfkc s)

lemma normBody_of_clean (nfkc : List Char → List Char) (t : List Char)
    (hfix : nfkc t = t) (hstrip : stripWs t = t)
    (hsplit : ∃ ws, (∀ w ∈ ws, w ≠ [] ∧ ∀ c ∈ w, pyWs c = false) ∧ t = joinSp ws) :
    normBody nfkc t = t := by
  obtain ⟨ws, hws, rfl⟩ := hsplit
  unfold normBody
  rw [hfix, stripWs_joinSp ws hws, splitWsAcc_joinSp ws hws]

/-- C10: `normalize_name` is idempotent and its output is stripped, free of
adjacent whitespace pairs (so of any whitespace run longer than one
character), and NFKC-normalised.  The NFKC step is the opaque parameter
`nfkc`; hypothesis `h0` (NFKC of the empty string is empty) and `hn` (NFKC
fixes the function's own outputs, a consequence of Unicode normalisation
idempotence and of space being a non-combining starter) are the
Unicode-standard facts assumed about it. -/
theorem C10_normalize_name_idempotent (nfkc : List Char → List Char)
    (h0 : nfkc [] = [])
    (hn : ∀ s, nfkc (normBody nfkc s) = normBody nfkc s) (name : List Char) :
    normalize_name nfkc (normalize_name nfkc name) = normalize_name nfkc name ∧
    stripWs (normalize_name nfkc name) = normalize_name nfkc name ∧
    noWsRun (normalize_name nfkc name) = true ∧
    nfkc (normalize_name nfkc name) = normalize_name nfkc name := by
  by_cases hne : name.isEmpty
  · have hname : name = [] := by simpa [List.isEmpty_iff] using hne
    subst hname
    exact ⟨rfl, rfl, rfl, h0⟩
  · have hr : normalize_name nfkc name = normBody nfkc name := by
      unfold normalize_name
      rw [if_neg hne]
    rw [hr]
    refine ⟨?_, stripWs_normBody nfkc name, noWsRun_joinSp _ (normBody_words nfkc name),
      hn name⟩
    by_cases hbe : (normBody nfkc name).isEmpty
    · unfold normalize_name
      rw [if_pos hbe]
    · unfold normalize_name
      rw [if_neg hbe]
      exact normBody_of_clean nfkc _ (hn name) (stripWs_normBody nfkc name)
        ⟨splitWsAcc (stripWs (nfkc name)) [], normBody_words nfkc name, rfl⟩

/-- Witness for C10 with `nfkc` instantiated to the identity (which satisfies
both hypotheses) on the concrete name `"  Anna   Svensson "`, whose
normalisation evaluates to `"Anna Svensson"`. -/
theorem C10_normalize_name_idempotent_witness :
    (normalize_name id (normalize_name id ("  Anna   Svensson ").data) =
      normalize_name id ("  Anna   Svensson ").data ∧
    stripWs (normalize_name id ("  Anna   Svensson ").data) =
      normalize_name id ("  Anna   Svensson ").data ∧
    noWsRun (normalize_name id ("  Anna   Svensson ").data) = true ∧
    id (normalize_name id ("  Anna   Svensson ").data) =
      normalize_name id ("  Anna   Svensson ").data) ∧
    normalize_name id ("  Anna   Svensson ").data = ("Anna Svensson").data :=
  ⟨C10_normalize_name_idempotent id rfl (fun _ => rfl) ("  Anna   Svensson ").data,
    by decide⟩

lemma dropWhile_all (p : Char → Bool) (l : List Char) (h : ∀ c ∈ l, p c = true) :
    l.dropWhile p = [] := by
  induction l with
  | nil => rfl
  | cons c cs ih =>
      rw [List.dropWhile_cons, if_pos (h c (by simp))]
      exact ih (fun d hd => h d (by simp [hd]))

/-- C6: the aggregation loop appends a record for an extracted row iff the
row's competition field is nonempty, not whitespace-only, and not composed
entirely of digits.  The hypothesis `h` records that extracted competition
fields are already stripped (`inner_text().strip()` at extraction, line 91),
the domain over which the claim quantifies. -/
theorem C6_competition_filter (comp : List Char) (h : stripWs comp = comp) :
    keepComp comp = true ↔ comp ≠ [] ∧ ¬wsOnly comp ∧ ¬allDigits comp := by
  by_cases hne : comp = []
  · subst hne
    simp [keepComp, wsOnly, allDigits]
  · have hwsfalse : ¬wsOnly comp := by
      rintro ⟨-, hall⟩
      have h1 : comp.dropWhile pyWs = [] := dropWhile_all pyWs comp hall
      have h2 : stripWs comp = [] := by
        unfold stripWs
        rw [h1]
        rfl
      exact hne (by rw [← h, h2])
    have hie : comp.isEmpty = false := by
      simp [List.isEmpty_iff, hne]
    unfold keepComp pyIsDigitStr
    rw [h, hie]
    constructor
    · intro hk
      refine ⟨hne, hwsfalse, ?_⟩
      rintro ⟨-, hdig⟩
      rw [List.all_eq_true.mpr hdig] at hk
      simp at hk
    · rintro ⟨-, -, hnd⟩
      have hnall : comp.all Char.isDigit = false := by
        rcases hb : comp.all Char.isDigit with _ | _
        · rfl
        · exact absurd ⟨hne, List.all_eq_true.mp hb⟩ hnd
      rw [hnall]
      rfl

/-- Witness for C6 on concrete stripped inputs: `"Div 1"` is kept and
satisfies the characterisation; `"123"` (all digits) and `""` are dropped. -/
theorem C6_competition_filter_witness :
    stripWs ("Div 1").data = ("Div 1").data ∧
    (keepComp ("Div 1").data = true ↔
      ("Div 1").data ≠ [] ∧ ¬wsOnly ("Div 1").data ∧ ¬allDigits ("Div 1").data) ∧
    keepComp ("Div 1").data = true ∧
    keepComp ("123").data = false ∧
    keepComp [] = false :=
  ⟨by decide, C6_competition_filter ("Div 1").data (by decide), by decide,
    by decide, by decide⟩

/-- C2 (refuting evaluation): for a headerless table (`headers = []`, the
case of a table without `thead`), every semantic field of an extracted row is
the empty string, not the positional cell text the claim promises (the
competition field would be cell 0, `"Div1"`).  The positional defaults 0..6
passed to `col_map.get(key, i)` are unreachable because each access is
guarded by `if key in col_map else ""`.  With headers present, resolution via
the lower-cased header-name map does work (third conjunct). -/
theorem C2_headerless_rows_yield_empty_fields :
    extractRow [] [("Div1").data, ("X").data, ("3").data] =
      some ⟨[], [], [], [], [], [], []⟩ ∧
    (extractRow [] [("Div1").data, ("X").data, ("3").data]).map
      (fun r => r.competition) ≠ some ("Div1").data ∧
    extractField [("Tävling").data, ("Lag").data, ("Ma").data]
      [(" Div1 ").data, ("X").data, ("3").data] ("tävling").data 0 =
      ("Div1").data := by
  decide

/-- C1 (refuting evaluation): `analyze_trupp` hands the chart step the pivot
with every division column (`pivot_plot = pivot.copy()`, line 362); the
`max_divisions` argument is never applied.  With four divisions of totals
10, 5, 50, 1 and `max_divisions = 2`, all four divisions are retained (in
pandas column order) instead of exactly the two with totals 50 and 10. -/
theorem C1_max_divisions_ignored :
    chartDivisionsTrupp
      [⟨("F-P").data, ("DA").data, ("X").data, .s ("10").data⟩,
       ⟨("F-P").data, ("DB").data, ("X").data, .s ("5").data⟩,
       ⟨("F-P").data, ("DC").data, ("X").data, .s ("50").data⟩,
       ⟨("F-P").data, ("DD").data, ("X").data, .s ("1").data⟩] 2 =
      [("DA").data, ("DB").data, ("DC").data, ("DD").data] ∧
    chartDivisionsTrupp
      [⟨("F-P").data, ("DA").data, ("X").data, .s ("10").data⟩,
       ⟨("F-P").data, ("DB").data, ("X").data, .s ("5").data⟩,
       ⟨("F-P").data, ("DC").data, ("X").data, .s ("50").data⟩,
       ⟨("F-P").data, ("DD").data, ("X").data, .s ("1").data⟩] 2 ≠
      [("DC").data, ("DA").data] := by
  decide

/-- C3 (refuting evaluation): `analyze_trupp` keeps every league row of the
participation matrix (lines 399-402); the `max_leagues` argument is never
applied.  With two divisions (DA: two distinct players, DB: one) and
`max_leagues = 1`, both divisions are retained instead of only the top one
by distinct-player count. -/
theorem C3_max_leagues_ignored :
    chartLeaguesTrupp
      [⟨("F-A").data, ("DA").data, ("X").data, .s ("3").data⟩,
       ⟨("F-B").data, ("DA").data, ("X").data, .s ("2").data⟩,
       ⟨("F-A").data, ("DB").data, ("X").data, .s ("4").data⟩] 1 =
      [("DA").data, ("DB").data] ∧
    chartLeaguesTrupp
      [⟨("F-A").data, ("DA").data, ("X").data, .s ("3").data⟩,
       ⟨("F-B").data, ("DA").data, ("X").data, .s ("2").data⟩,
       ⟨("F-A").data, ("DB").data, ("X").data, .s ("4").data⟩] 1 ≠
      [("DA").data] := by
  decide

/-- C9: each empty-result condition - an empty roster, an empty accumulated
appearance list, or an empty working set after filtering (equivalently an
empty pivot) - makes the pipeline return early with an informational message
and no chart artifacts; the model is a total function, so termination without
raising is inherent.  An empty roster in particular reports that no
appearance rows were found. -/
theorem C9_empty_results_terminate_cleanly (roster : List PlayerFetch)
    (h : roster = [] ∨ aggregate roster = [] ∨ workingSet (aggregate roster) = []) :
    (analyze_trupp_model roster).charts = [] ∧
    ((analyze_trupp_model roster).msgs =
        [("No appearance rows found for any player.").data] ∨
      (analyze_trupp_model roster).msgs =
        [("No division appearance data to plot.").data]) ∧
    (roster = [] → (analyze_trupp_model roster).msgs =
      [("No appearance rows found for any player.").data]) := by
  have hcase : aggregate roster = [] ∨ workingSet (aggregate roster) = [] := by
    rcases h with rfl | h | h
    · exact Or.inl rfl
    · exact Or.inl h
    · exact Or.inr h
  by_cases h1 : aggregate roster = []
  · have hm : analyze_trupp_model roster =
        ⟨[("No appearance rows found for any player.").data], []⟩ := by
      unfold analyze_trupp_model
      rw [h1]
      rfl
    rw [hm]
    exact ⟨rfl, Or.inl rfl, fun _ => rfl⟩
  · have h2 : workingSet (aggregate roster) = [] := hcase.resolve_left h1
    have hm : analyze_trupp_model roster =
        ⟨[("No division appearance data to plot.").data], []⟩ := by
      unfold analyze_trupp_model
      simp only [List.isEmpty_iff, h2]
      rw [if_neg (by simpa [List.isEmpty_iff] using h1)]
      rfl
    rw [hm]
    exact ⟨rfl, Or.inr rfl, fun hr => (h1 (by rw [hr]; rfl)).elim⟩

/-- Witness for C9 at the concrete empty roster. -/
theorem C9_empty_results_witness :
    (analyze_trupp_model []).charts = [] ∧
    ((analyze_trupp_model []).msgs =
        [("No appearance rows found for any player.").data] ∨
      (analyze_trupp_model []).msgs =
        [("No division appearance data to plot.").data]) ∧
    (([] : List PlayerFetch) = [] → (analyze_trupp_model []).msgs =
      [("No appearance rows found for any player.").data]) :=
  C9_empty_results_terminate_cleanly [] (Or.inl rfl)

lemma mem_sortedUnique (l : List (List Char)) (x : List Char) :
    x ∈ sortedUnique l ↔ x ∈ l := by
  unfold sortedUnique
  rw [(List.perm_insertionSort _ _).mem_iff, List.mem_dedup]

lemma nodup_sortedUnique (l : List (List Char)) : (sortedUnique l).Nodup := by
  unfold sortedUnique
  exact ((List.perm_insertionSort _ _).nodup_iff).mpr (List.nodup_dedup l)

lemma sum_map_add {X : Type} (D : List X) (f g : X → Int) :
    (D.map (fun d => f d + g d)).sum = (D.map f).sum + (D.map g).sum := by
  induction D with
  | nil => rfl
  | cons a D ih =>
      simp only [List.map_cons, List.sum_cons, ih]
      ring

lemma sum_map_ite_single (D : List (List Char)) (d0 : List Char) (m : Int)
    (hnd : D.Nodup) (hmem : d0 ∈ D) :
    (D.map (fun d => if d0 = d then m else 0)).sum = m := by
  induction D with
  | nil => simp at hmem
  | cons a D ih =>
      rw [List.map_cons, List.sum_cons]
      rcases List.mem_cons.mp hmem with rfl | hmem2
      · rw [if_pos rfl]
        have hnotin : d0 ∉ D := (List.nodup_cons.mp hnd).1
        have hz : (D.map (fun d => if d0 = d then m else 0)).sum = 0 := by
          apply List.sum_eq_zero
          intro x hx
          obtain ⟨d, hd, rfl⟩ := List.mem_map.mp hx
          rw [if_neg (fun e => hnotin (by rw [e]; exact hd))]
        rw [hz, add_zero]
      · have hne : ¬(d0 = a) := fun e =>
          (List.nodup_cons.mp hnd).1 (by rw [← e]; exact hmem2)
        rw [if_neg hne, ih (List.nodup_cons.mp hnd).2 hmem2, zero_add]

lemma cellPD_cons (r : AppRec) (l : List AppRec) (p d : List Char) :
    cellPD (r :: l) p d =
      (if r.player = p ∧ r.division = d then r.matchCount else 0) + cellPD l p d := by
  unfold cellPD
  rw [List.filter_cons]
  by_cases hc : r.player = p ∧ r.division = d
  · rw [if_pos (by simp [hc.1, hc.2]), if_pos hc, List.map_cons, List.sum_cons]
  · rw [if_neg (by simp [hc]), if_neg hc, zero_add]

lemma playerTotal_cons (r : AppRec) (l : List AppRec) (p : List Char) :
    playerTotal (r :: l) p =
      (if r.player = p then r.matchCount else 0) + playerTotal l p := by
  unfold playerTotal
  rw [List.filter_cons]
  by_cases hc : r.player = p
  · rw [if_pos (by simp [hc]), if_pos hc, List.map_cons, List.sum_cons]
  · rw [if_neg (by simp [hc]), if_neg hc, zero_add]

lemma sum_cellPD_partition (p : List Char) (D : List (List Char)) (hnd : D.Nodup) :
    ∀ l : List AppRec, (∀ r ∈ l, r.division ∈ D) →
      (D.map (fun d => cellPD l p d)).sum = playerTotal l p := by
  intro l
  induction l with
  | nil =>
      intro _
      have hz : ∀ x ∈ D.map (fun d => cellPD ([] : List AppRec) p d), x = 0 := by
        intro x hx
        obtain ⟨d, hd, rfl⟩ := List.mem_map.mp hx
        rfl
      rw [List.sum_eq_zero hz]
      rfl
  | cons r l ih =>
      intro hD
      have hmap : D.map (fun d => cellPD (r :: l) p d) =
          D.map (fun d =>
            (if r.player = p ∧ r.division = d then r.matchCount else 0) +
              cellPD l p d) :=
        List.map_congr_left (fun d _ => cellPD_cons r l p d)
      rw [hmap, sum_map_add, playerTotal_cons]
      have hite : (D.map (fun d =>
          if r.player = p ∧ r.division = d then r.matchCount else 0)).sum =
          (if r.player = p then r.matchCount else 0) := by
        by_cases hp : r.player = p
        · rw [if_pos hp]
          have hcg : D.map (fun d =>
              if r.player = p ∧ r.division = d then r.matchCount else 0) =
              D.map (fun d => if r.division = d then r.matchCount else 0) :=
            List.map_congr_left (fun d _ => by
              by_cases hdd : r.division = d
              · rw [if_pos ⟨hp, hdd⟩, if_pos hdd]
              · rw [if_neg (fun hcon => hdd hcon.2), if_neg hdd])
          rw [hcg, sum_map_ite_single D r.division r.matchCount hnd (hD r (by simp))]
        · rw [if_neg hp]
          apply List.sum_eq_zero
          intro x hx
          obtain ⟨d, hd, rfl⟩ := List.mem_map.mp hx
          rw [if_neg (fun hcon => hp hcon.1)]
      rw [hite, ih (fun x hx => hD x (by simp [hx]))]

lemma of_mem_cleanApp (l : List AppRec) (r : AppRec) (h : r ∈ cleanApp l) :
    r ∈ l ∧ r.division ≠ [] ∧ 0 < r.matchCount := by
  unfold cleanApp at h
  have hm := List.mem_filter.mp h
  have hb := hm.2
  rw [Bool.and_eq_true] at hb
  rcases hb with ⟨hb1, hb2⟩
  refine ⟨hm.1, ?_, of_decide_eq_true hb2⟩
  intro e
  rw [e] at hb1
  exact absurd hb1 (by decide)

lemma foldl_max_ones (xs : List Int) (h : ∀ x ∈ xs, x = 1) :
    ∀ a : Int, xs.foldl max a = if xs = [] then a else max a 1 := by
  induction xs with
  | nil => intro a; rfl
  | cons x xs ih =>
      intro a
      have hx : x = 1 := h x (by simp)
      subst hx
      rw [List.foldl_cons, ih (fun y hy => h y (by simp [hy])) (max a 1)]
      by_cases he : xs = []
      · rw [if_pos he, if_neg (show ¬((1 : Int) :: xs = []) from by simp)]
      · rw [if_neg he, if_neg (show ¬((1 : Int) :: xs = []) from by simp),
          max_assoc, max_self]

/-- C8: every cell of the player-by-division matrix (the sum of match counts
over all team entries of the pair, 0 where absent, by definition of
`cellPD`) is non-negative, and each player's row sum over all division
columns equals the total of that player's filtered record match counts. -/
theorem C8_pivot_cells_and_row_sums (raw : List RawApp) (p d : List Char) :
    0 ≤ cellPD (workingSet raw) p d ∧
    rowSumPD (workingSet raw) p = playerTotal (workingSet raw) p := by
  constructor
  · unfold cellPD
    apply List.sum_nonneg
    intro x hx
    obtain ⟨r, hr, rfl⟩ := List.mem_map.mp hx
    have hrm : r ∈ workingSet raw := (List.mem_filter.mp hr).1
    exact le_of_lt (of_mem_cleanApp _ r hrm).2.2
  · unfold rowSumPD
    apply sum_cellPD_partition p (pivotDivisions (workingSet raw))
      (nodup_sortedUnique _)
    intro r hr
    exact (mem_sortedUnique _ _).mpr (List.mem_map.mpr ⟨r, hr, rfl⟩)

/-- C7: every cell of the division-by-player participation matrix is 0 or 1,
and it is 1 exactly when some filtered record of that (division, player) pair
has a positive match count (team duplicates collapsed by `max`). -/
theorem C7_participation_cells (raw : List RawApp) (d p : List Char) :
    (cellDP (workingSet raw) d p = 0 ∨ cellDP (workingSet raw) d p = 1) ∧
    (cellDP (workingSet raw) d p = 1 ↔
      ∃ r ∈ workingSet raw, r.division = d ∧ r.player = p ∧ 0 < r.matchCount) := by
  set m := workingSet raw with hm
  set g := m.filter (fun r => r.division = d ∧ r.player = p) with hg
  have hflags : ∀ x ∈ g.map playedFlag, x = 1 := by
    intro x hx
    obtain ⟨r, hr, rfl⟩ := List.mem_map.mp hx
    have hrm : r ∈ m := (List.mem_filter.mp hr).1
    have hpos : 0 < r.matchCount := (of_mem_cleanApp _ r (hm ▸ hrm)).2.2
    unfold playedFlag
    rw [if_pos hpos]
  have hcell : cellDP m d p = if g = [] then 0 else 1 := by
    unfold cellDP
    rw [← hg, foldl_max_ones (g.map playedFlag) hflags 0]
    by_cases he : g = []
    · rw [if_pos (show g.map playedFlag = [] from by rw [he]; rfl), if_pos he]
    · rw [if_neg (show ¬(g.map playedFlag = []) from by
        simpa [List.map_eq_nil_iff] using he), if_neg he]
      decide
  rw [hcell]
  constructor
  · by_cases he : g = []
    · exact Or.inl (by rw [if_pos he])
    · exact Or.inr (by rw [if_neg he])
  · constructor
    · intro h1
      by_cases he : g = []
      · rw [if_pos he] at h1
        exact absurd h1 (by decide)
      · obtain ⟨r, hr⟩ := List.exists_mem_of_ne_nil g he
        have hrf := List.mem_filter.mp hr
        obtain ⟨hd2, hp2⟩ := of_decide_eq_true hrf.2
        exact ⟨r, hrf.1, hd2, hp2, (of_mem_cleanApp _ r (hm ▸ hrf.1)).2.2⟩
    · rintro ⟨r, hrm, hd2, hp2, -⟩
      have hrg : r ∈ g := List.mem_filter.mpr ⟨hrm, by simp [hd2, hp2]⟩
      rw [if_neg (List.ne_nil_of_mem hrg)]

/-- C4: the validation loop emits a mismatch warning (naming the player, the
expected TOTALT value and the computed row sum) exactly for players of the
pivot index whose first TOTALT record differs from their row sum; with
TOTALT 20 and division sums 10 + 10 no warning is emitted, with 10 + 5 the
single warning has expected 20 and computed 15. -/
theorem C4_validation_mismatch_iff :
    (∀ totals m : List AppRec, ∀ p : List Char, ∀ e c : Int,
      ((⟨p, e, c⟩ : Mismatch) ∈ validationWarnings totals m ↔
        (p ∈ pivotPlayers m ∧ firstTotalMatches totals p = some e ∧
          c = rowSumPD m p ∧ e ≠ c))) ∧
    validationWarnings
      [⟨("F-X").data, ("TOTALT").data, ("T").data, 20⟩]
      [⟨("F-X").data, ("A").data, ("T").data, 10⟩,
       ⟨("F-X").data, ("B").data, ("T").data, 10⟩] = [] ∧
    validationWarnings
      [⟨("F-X").data, ("TOTALT").data, ("T").data, 20⟩]
      [⟨("F-X").data, ("A").data, ("T").data, 10⟩,
       ⟨("F-X").data, ("B").data, ("T").data, 5⟩] = [⟨("F-X").data, 20, 15⟩] := by
  refine ⟨fun totals m p e c => ?_, by decide, by decide⟩
  unfold validationWarnings
  rw [List.mem_filterMap]
  constructor
  · rintro ⟨q, hq, hf⟩
    cases hft : firstTotalMatches totals q with
    | none =>
        rw [hft] at hf
        exact absurd (show (none : Option Mismatch) = some ⟨p, e, c⟩ from hf)
          (by simp)
    | some e2 =>
        rw [hft] at hf
        have hf2 : (if e2 ≠ rowSumPD m q then
            some (⟨q, e2, rowSumPD m q⟩ : Mismatch) else none) =
            some ⟨p, e, c⟩ := hf
        by_cases hne : e2 ≠ rowSumPD m q
        · rw [if_pos hne] at hf2
          obtain ⟨rfl, rfl, rfl⟩ := Mismatch.mk.inj (Option.some.inj hf2)
          exact ⟨hq, hft, rfl, hne⟩
        · rw [if_neg hne] at hf2
          exact absurd hf2 (by simp)
  · rintro ⟨hp, hf, rfl, hne⟩
    refine ⟨p, hp, ?_⟩
    rw [hf]
    show (if e ≠ rowSumPD m p then
        some (⟨p, e, rowSumPD m p⟩ : Mismatch) else none) =
      some ⟨p, e, rowSumPD m p⟩
    rw [if_pos hne]

end Bandy
